import Mathlib

/-!
Verification of `torchio/data/sampler/label.py` (class `LabelSampler`),
a rejection sampler that extracts fixed-size patches containing at least
one foreground voxel of a label volume.

The file shallowly embeds the source: samples are insertion-ordered lists
of named entries, arrays are dense N-dimensional integer arrays with a
channel dimension, and the external random-index generator
(`ImageSampler.get_random_indices`, not part of the source under
verification) is modelled as an oracle `gen : Nat → Window` giving the
successive windows it proposes.  The unbounded `while` loop of
`extract_patch` is embedded with explicit fuel: a `running` outcome at
every fuel value models non-termination.  The collaborators `crop`,
`copy_and_crop` and `is_image_dict` live in sibling modules that are not
part of the source tree; they are modelled from the specification and
marked as such in their doc comments.
-/

namespace TorchioLabel

/-- The label type tag (`torchio.LABEL`).  Modelled from the spec: the tag
constants live in the package root, outside the source under verification;
the spec only requires a small closed set of tags containing at least
`INTENSITY` and `LABEL`. -/
def LABEL : String := "label"

/-- The intensity type tag (`torchio.INTENSITY`).  Modelled from the spec,
as for `LABEL`. -/
def INTENSITY : String := "intensity"

/-- A dense numeric N-dimensional array: a channel dimension of size
`channels` followed by spatial dimensions of sizes `extent`; `val c idx`
is the voxel value at channel `c` and spatial multi-index `idx`. -/
structure NDArray where
  channels : Nat
  extent : List Nat
  val : Nat → List Nat → Int

/-- All spatial multi-indices of an extent, in lexicographic order. -/
def allIdx : List Nat → List (List Nat)
  | [] => [[]]
  | n :: rest => (List.range n).flatMap (fun i => (allIdx rest).map (fun idx => i :: idx))

/-- The sum of all voxel values of an array (numpy `ndarray.sum()`). -/
def NDArray.sum (a : NDArray) : Int :=
  ((List.range a.channels).flatMap
    (fun c => (allIdx a.extent).map (fun idx => a.val c idx))).sum

/-- Modelled from the spec: the generic `crop` operation imported from
`.sampler`, whose source is not under verification.  Given an array and a
crop window it returns the sub-array over spatial dimensions, preserving
the channel dimension in full: spatial sizes become
`index_fin[d] - index_ini[d]` and reads are offset by `index_ini`. -/
def crop (a : NDArray) (index_ini index_fin : List Nat) : NDArray :=
  { channels := a.channels
    extent := List.zipWith (fun f i => f - i) index_fin index_ini
    val := fun c idx => a.val c (List.zipWith (fun i j => i + j) index_ini idx) }

/-- A sample entry: either an image entry (a dict bearing a `type` tag and
a `data` array) or a non-image auxiliary entry with an opaque payload. -/
inductive Entry where
  | image (type : String) (data : NDArray)
  | aux (payload : Int)

/-- Modelled from the spec: `is_image_dict` from `torchio.utils` (not under
verification) distinguishes image entries from auxiliary metadata; per the
spec design note it is a variant match. -/
def is_image_dict : Entry → Bool
  | .image _ _ => true
  | .aux _ => false

/-- The `type` tag of an entry, when it is an image entry
(`image_dict['type']`). -/
def Entry.typeTag : Entry → Option String
  | .image t _ => some t
  | .aux _ => none

/-- The `data` array of an entry (`image_dict[DATA]`); a default empty
array stands for the key error an access on a non-image entry would raise
(unreachable in the verified code paths). -/
def Entry.dataD : Entry → NDArray
  | .image _ d => d
  | .aux _ => { channels := 0, extent := [], val := fun _ _ => 0 }

/-- Whether an entry is an image entry whose type equals the label tag. -/
def Entry.isLabelImage : Entry → Bool
  | .image t _ => t = LABEL
  | .aux _ => false

/-- A sample: a mapping from entry name to entry, with stable (insertion)
iteration order, embedded as an association list. -/
abbrev Sample := List (String × Entry)

/-- `LabelSampler.get_first_label_image_dict`: iterate `sample.values()`
in order, skip entries failing `is_image_dict`, and return the first image
entry whose `type` equals `LABEL`; `none` models the `ValueError` raised
by the `for`/`else` when the loop completes with no break. -/
def get_first_label_image_dict : Sample → Option Entry
  | [] => none
  | (_, image_dict) :: rest =>
    if is_image_dict image_dict = false then get_first_label_image_dict rest
    else if image_dict.typeTag = some LABEL then some image_dict
    else get_first_label_image_dict rest

/-- A crop window as returned by the random-index generator: the pair
`(index_ini, index_fin)` of spatial coordinate tuples. -/
abbrev Window := List Nat × List Nat

/-- Outcome of one `extract_patch` call under explicit fuel:
`ok cropped` models a normal return, `noLabel` models the propagated
`ValueError` of the locator, and `running` means the retry loop had not
yet accepted a window when the fuel ran out (so `running` at every fuel
models non-termination). -/
inductive ExtractResult where
  | ok (cropped : Sample)
  | noLabel
  | running

/-- The body of the `while not has_label` retry loop of `extract_patch`:
starting at proposal index `k`, ask the generator for the window `gen k`,
crop the label data to it, and accept (returning `some k`) when the
cropped label sum is positive; otherwise move to the next proposal.
`none` means the fuel was exhausted before any acceptance. -/
def sampleLoop (label_image_data : NDArray) (gen : Nat → Window) :
    Nat → Nat → Option Nat
  | 0, _ => none
  | fuel + 1, k =>
    let index_ini := (gen k).1
    let index_fin := (gen k).2
    let patch_label := crop label_image_data index_ini index_fin
    if 0 < patch_label.sum then some k
    else sampleLoop label_image_data gen fuel (k + 1)

/-- The action of a crop window on one entry: an image entry's `data` is
cropped, a non-image entry passes through unchanged. -/
def cropEntry (index_ini index_fin : List Nat) : Entry → Entry
  | .image t d => .image t (crop d index_ini index_fin)
  | .aux p => .aux p

/-- Modelled from the spec: `copy_and_crop` (inherited from
`ImageSampler`, whose source is not under verification) produces a new
sample with the same keys in which every image entry's `data` is cropped
to the given window and every non-image entry passes through unchanged. -/
def copy_and_crop (sample : Sample) (index_ini index_fin : List Nat) : Sample :=
  sample.map (fun ne => (ne.1, cropEntry index_ini index_fin ne.2))

/-- `LabelSampler.extract_patch`: locate the first label image's data
(propagating the locator's failure immediately), then loop proposing
windows from the generator until one whose label crop has positive sum is
accepted, and finally return `copy_and_crop` of the whole sample at that
window.  The second component counts the calls made to the random-index
generator (one per loop iteration). -/
def extract_patch (sample : Sample) (patch_size : List Nat)
    (gen : Nat → Window) (fuel : Nat) : ExtractResult × Nat :=
  match get_first_label_image_dict sample with
  | none => (.noLabel, 0)
  | some label_image_dict =>
    match sampleLoop label_image_dict.dataD gen fuel 0 with
    | none => (.running, fuel)
    | some k =>
      (.ok (copy_and_crop sample (gen k).1 (gen k).2), k + 1)

/-- State of the generator object returned by
`extract_patch_generator`: the fixed `(sample, patch_size)` pair it
closed over and the number of elements yielded so far (which selects the
segment of fresh randomness the next `extract_patch` call will consume). -/
structure GenState where
  sample : Sample
  patch_size : List Nat
  count : Nat

/-- One resumption of the `while True: yield ...` generator body of
`LabelSampler.extract_patch_generator`: it always yields the result of
one fresh `extract_patch` call on the stored pair (using the `count`-th
segment of randomness) and increments the yield counter; `none` (the
generator finishing, `StopIteration`) is never produced. -/
def extract_patch_generator_step (gens : Nat → Nat → Window) (fuel : Nat)
    (st : GenState) : Option ((ExtractResult × Nat) × GenState) :=
  some (extract_patch st.sample st.patch_size (gens st.count) fuel,
    { st with count := st.count + 1 })

/-- Drawing `n` elements from the generator: the list of yielded values
and the final generator state; an early `none` from the step would stop
the drawn list short. -/
def genRun (gens : Nat → Nat → Window) (fuel : Nat) :
    Nat → GenState → List (ExtractResult × Nat) × GenState
  | 0, st => ([], st)
  | n + 1, st =>
    match extract_patch_generator_step gens fuel st with
    | none => ([], st)
    | some (v, st2) =>
      let r := genRun gens fuel n st2
      (v :: r.1, r.2)

/-!
Heap-level model.  The non-mutation claim is about aliasing: the call
must not write to the arrays the caller owns, and must hand back fresh
sub-arrays.  To express this the sample's entries hold references into an
explicit array heap, and the spec-modelled `crop` allocates.  The control
flow below mirrors `extract_patch` line by line; only the representation
of arrays differs from the value-level model above.
-/

/-- The array heap: cell `r` holds the array a reference `r` points to. -/
abbrev Heap := List NDArray

/-- A sample entry at heap level: image entries hold a reference to their
`data` array instead of the array itself. -/
inductive HEntry where
  | image (type : String) (ref : Nat)
  | aux (payload : Int)

/-- Modelled from the spec: `is_image_dict` at heap level, as for the
value-level model. -/
def is_image_dictH : HEntry → Bool
  | .image _ _ => true
  | .aux _ => false

/-- The `type` tag of a heap-level entry, when it is an image entry. -/
def HEntry.typeTag : HEntry → Option String
  | .image t _ => some t
  | .aux _ => none

/-- The `data` reference of a heap-level entry; the default `0` stands for
the key error an access on a non-image entry would raise (unreachable in
the verified code paths). -/
def HEntry.refD : HEntry → Nat
  | .image _ r => r
  | .aux _ => 0

/-- A heap-level sample: named entries holding array references. -/
abbrev HSample := List (String × HEntry)

/-- Read the array a reference points to (a dangling reference reads as an
empty array; the verified code paths never create one). -/
def Heap.readA (h : Heap) (r : Nat) : NDArray :=
  h.getD r { channels := 0, extent := [], val := fun _ _ => 0 }

/-- Modelled from the spec: at heap level `crop` allocates a fresh
sub-array — a new, independently-owned array (or immutable view with no
write-back) — and never overwrites an existing cell: the heap is only
extended.  Returns the new heap and the fresh reference. -/
def cropH (h : Heap) (r : Nat) (index_ini index_fin : List Nat) : Heap × Nat :=
  (h ++ [crop (h.readA r) index_ini index_fin], h.length)

/-- `get_first_label_image_dict` at heap level, same control flow as the
value-level embedding. -/
def get_first_label_image_dictH : HSample → Option HEntry
  | [] => none
  | (_, image_dict) :: rest =>
    if is_image_dictH image_dict = false then get_first_label_image_dictH rest
    else if image_dict.typeTag = some LABEL then some image_dict
    else get_first_label_image_dictH rest

/-- The retry loop of `extract_patch` at heap level: each iteration crops
the label array (allocating the temporary `patch_label`) and tests its
sum; the heap is threaded through the iterations. -/
def sampleLoopH (gen : Nat → Window) :
    Nat → Heap → Nat → Nat → Heap × Option Nat
  | 0, h, _, _ => (h, none)
  | fuel + 1, h, labelRef, k =>
    let hr := cropH h labelRef (gen k).1 (gen k).2
    if 0 < (Heap.readA hr.1 hr.2).sum then (hr.1, some k)
    else sampleLoopH gen fuel hr.1 labelRef (k + 1)

/-- Modelled from the spec: `copy_and_crop` at heap level — crop (hence
allocate) every image entry's array at the same window, pass non-image
entries through unchanged, keeping names and order. -/
def copy_and_cropH (h : Heap) (sample : HSample) (index_ini index_fin : List Nat) :
    Heap × HSample :=
  match sample with
  | [] => (h, [])
  | (name, .aux p) :: rest =>
    let r := copy_and_cropH h rest index_ini index_fin
    (r.1, (name, .aux p) :: r.2)
  | (name, .image t ref) :: rest =>
    let hc := cropH h ref index_ini index_fin
    let r := copy_and_cropH hc.1 rest index_ini index_fin
    (r.1, (name, .image t hc.2) :: r.2)

/-- Outcome of a heap-level `extract_patch` call. -/
inductive HResult where
  | ok (cropped : HSample)
  | noLabel
  | running

/-- `extract_patch` at heap level: same control flow as `extract_patch`,
returning the final heap together with the outcome. -/
def extract_patchH (h : Heap) (sample : HSample) (patch_size : List Nat)
    (gen : Nat → Window) (fuel : Nat) : Heap × HResult :=
  match get_first_label_image_dictH sample with
  | none => (h, .noLabel)
  | some label_image_dict =>
    let labelRef := label_image_dict.refD
    match sampleLoopH gen fuel h labelRef 0 with
    | (h1, none) => (h1, .running)
    | (h1, some k) =>
      let r := copy_and_cropH h1 sample (gen k).1 (gen k).2
      (r.1, .ok r.2)

/-!
Concrete inputs used by the witness theorems.
-/

/-- A one-channel label volume of extent `[4]` with a single foreground
voxel at spatial index `[2]`. -/
def labelFg : NDArray :=
  { channels := 1, extent := [4], val := fun _ idx => if idx = [2] then 1 else 0 }

/-- A one-channel all-zero label volume of extent `[4]`. -/
def labelZero : NDArray :=
  { channels := 1, extent := [4], val := fun _ _ => 0 }

/-- A one-channel intensity volume of extent `[4]`. -/
def imgT1 : NDArray :=
  { channels := 1, extent := [4], val := fun _ idx => (idx.headD 0 : Int) + 3 }

/-- A sample with a non-image entry, an intensity image, and two label
images (the first holding `labelFg`). -/
def sampleFg : Sample :=
  [("meta", .aux 7),
   ("t1", .image INTENSITY imgT1),
   ("seg", .image LABEL labelFg),
   ("seg2", .image LABEL { channels := 1, extent := [4], val := fun _ _ => 5 })]

/-- A sample with no label-tagged entry. -/
def sampleNoLabel : Sample :=
  [("meta", .aux 7), ("t1", .image INTENSITY imgT1)]

/-- A sample whose only label volume is all zero. -/
def sampleZero : Sample :=
  [("t1", .image INTENSITY imgT1), ("seg", .image LABEL labelZero)]

/-- A window oracle proposing windows of size 2 at offsets 0, 1, 2, 0, …;
it rejects at proposal 0 and accepts `labelFg` at proposal 1. -/
def genW : Nat → Window := fun n => ([n % 3], [n % 3 + 2])

/-- Heap-level counterpart of `sampleFg`: the heap holds the arrays and
the entries reference them. -/
def heapFg : Heap := [labelFg, imgT1]

/-- Heap-level sample referencing `heapFg`. -/
def hsampleFg : HSample :=
  [("meta", .aux 7), ("t1", .image INTENSITY 1), ("seg", .image LABEL 0)]

/-!
Helper lemmas about sums.
-/

/-- A list of non-negative integers has a positive sum iff some member is
positive. -/
lemma list_sum_pos_iff (l : List Int) (h : ∀ x ∈ l, 0 ≤ x) :
    0 < l.sum ↔ ∃ x ∈ l, 0 < x := by
  induction l with
  | nil => simp
  | cons a t ih =>
    have ha : 0 ≤ a := h a (List.mem_cons_self a t)
    have ht : ∀ x ∈ t, 0 ≤ x := fun x hx => h x (List.mem_cons_of_mem a hx)
    have hts : 0 ≤ t.sum := List.sum_nonneg ht
    rw [List.sum_cons]
    constructor
    · intro hpos
      rcases lt_or_le 0 a with hA | hA
      · exact ⟨a, List.mem_cons_self a t, hA⟩
      · have h2 : 0 < t.sum := by omega
        rcases (ih ht).1 h2 with ⟨x, hx, hxp⟩
        exact ⟨x, List.mem_cons_of_mem a hx, hxp⟩
    · rintro ⟨x, hx, hxp⟩
      rcases List.mem_cons.1 hx with rfl | hx2
      · omega
      · have h2 := (ih ht).2 ⟨x, hx2, hxp⟩
        omega

/-- Membership in the list of all voxel values of an array. -/
lemma NDArray.mem_vals_iff (a : NDArray) (x : Int) :
    (x ∈ (List.range a.channels).flatMap
        (fun c => (allIdx a.extent).map (fun idx => a.val c idx))) ↔
      ∃ c ∈ List.range a.channels, ∃ idx ∈ allIdx a.extent, a.val c idx = x := by
  simp [List.mem_flatMap, List.mem_map]

/-- An array with non-negative voxel values has a positive sum iff some
voxel in range is positive. -/
lemma NDArray.sum_pos_iff (a : NDArray) (hnn : ∀ c idx, 0 ≤ a.val c idx) :
    0 < a.sum ↔
      ∃ c ∈ List.range a.channels, ∃ idx ∈ allIdx a.extent, 0 < a.val c idx := by
  unfold NDArray.sum
  rw [list_sum_pos_iff]
  · constructor
    · rintro ⟨x, hx, hxp⟩
      obtain ⟨c, hc, idx, hidx, rfl⟩ := (NDArray.mem_vals_iff a x).1 hx
      exact ⟨c, hc, idx, hidx, hxp⟩
    · rintro ⟨c, hc, idx, hidx, hp⟩
      exact ⟨a.val c idx, (NDArray.mem_vals_iff a _).2 ⟨c, hc, idx, hidx, rfl⟩, hp⟩
  · intro x hx
    obtain ⟨c, hc, idx, hidx, rfl⟩ := (NDArray.mem_vals_iff a x).1 hx
    exact hnn c idx

/-- An array all of whose voxel values are zero has sum zero. -/
lemma NDArray.sum_of_zero (a : NDArray) (hz : ∀ c idx, a.val c idx = 0) :
    a.sum = 0 := by
  unfold NDArray.sum
  apply List.sum_eq_zero
  intro x hx
  obtain ⟨c, hc, idx, hidx, rfl⟩ := (NDArray.mem_vals_iff a x).1 hx
  exact hz c idx

/-- Claim C8: the acceptance test computed by `extract_patch` — the sum of
the cropped label array is positive — holds iff the crop contains at least
one voxel with value strictly greater than zero, provided all label values
are non-negative. -/
theorem crop_sum_pos_iff_foreground (a : NDArray) (index_ini index_fin : List Nat)
    (hnn : ∀ c idx, 0 ≤ a.val c idx) :
    0 < (crop a index_ini index_fin).sum ↔
      ∃ c ∈ List.range (crop a index_ini index_fin).channels,
        ∃ idx ∈ allIdx (crop a index_ini index_fin).extent,
          0 < (crop a index_ini index_fin).val c idx := by
  exact NDArray.sum_pos_iff (crop a index_ini index_fin) (fun c idx => hnn c _)

/-- Witness for C8 at `labelFg` and the window `[2, 4)`: the non-negativity
hypothesis holds and the equivalence is obtained from the theorem. -/
theorem crop_sum_pos_iff_foreground_witness :
    (∀ c idx, 0 ≤ labelFg.val c idx) ∧
      (0 < (crop labelFg [2] [4]).sum ↔
        ∃ c ∈ List.range (crop labelFg [2] [4]).channels,
          ∃ idx ∈ allIdx (crop labelFg [2] [4]).extent,
            0 < (crop labelFg [2] [4]).val c idx) := by
  have hnn : ∀ c idx, 0 ≤ labelFg.val c idx := by
    intro c idx
    show (0 : Int) ≤ if idx = [2] then 1 else 0
    split <;> decide
  exact ⟨hnn, crop_sum_pos_iff_foreground labelFg [2] [4] hnn⟩

/-!
Lemmas about the label locator.
-/

/-- On a sample with no label-tagged entry the locator reaches the
`for`/`else` branch and fails. -/
lemma get_first_label_none_of_no_label (sample : Sample)
    (h : ∀ ne ∈ sample, ne.2.isLabelImage = false) :
    get_first_label_image_dict sample = none := by
  induction sample with
  | nil => rfl
  | cons ne rest ih =>
    obtain ⟨name, e⟩ := ne
    have he : e.isLabelImage = false := h (name, e) (List.mem_cons_self _ _)
    have hr : ∀ x ∈ rest, x.2.isLabelImage = false :=
      fun x hx => h x (List.mem_cons_of_mem _ hx)
    cases e with
    | aux p =>
      simpa [get_first_label_image_dict, is_image_dict] using ih hr
    | image t d =>
      have hT : ¬ t = LABEL := by
        intro hEq
        rw [Entry.isLabelImage, decide_eq_false_iff_not] at he
        exact he hEq
      simpa [get_first_label_image_dict, is_image_dict, Entry.typeTag, hT] using ih hr

/-- Soundness of the locator: a returned entry is a label image occurring
at some position before which every entry fails the label-image test. -/
lemma get_first_label_some_spec (sample : Sample) (e : Entry)
    (h : get_first_label_image_dict sample = some e) :
    ∃ i : Nat, ∃ ne : String × Entry, sample[i]? = some ne ∧ ne.2 = e ∧
      e.isLabelImage = true ∧
      ∀ (j : Nat), ∀ ne2 : String × Entry,
        j < i → sample[j]? = some ne2 → ne2.2.isLabelImage = false := by
  induction sample with
  | nil => simp [get_first_label_image_dict] at h
  | cons hd rest ih =>
    obtain ⟨name, a⟩ := hd
    by_cases hl : a.isLabelImage = true
    · have hsome : get_first_label_image_dict ((name, a) :: rest) = some a := by
        cases a with
        | aux p => simp [Entry.isLabelImage] at hl
        | image t d =>
          rw [Entry.isLabelImage, decide_eq_true_iff] at hl
          simp [get_first_label_image_dict, is_image_dict, Entry.typeTag, hl]
      rw [hsome] at h
      obtain rfl : a = e := Option.some.inj h
      refine ⟨0, (name, a), by simp, rfl, hl, ?_⟩
      intro j ne2 hj _
      omega
    · have hskip : get_first_label_image_dict ((name, a) :: rest) =
          get_first_label_image_dict rest := by
        cases a with
        | aux p => simp [get_first_label_image_dict, is_image_dict]
        | image t d =>
          have hT : ¬ t = LABEL := by
            intro hEq
            exact hl (by rw [Entry.isLabelImage, decide_eq_true_iff]; exact hEq)
          simp [get_first_label_image_dict, is_image_dict, Entry.typeTag, hT]
      rw [hskip] at h
      obtain ⟨i, ne, h1, h2, h3, h4⟩ := ih h
      refine ⟨i + 1, ne, by simpa using h1, h2, h3, ?_⟩
      intro j ne2 hj hget
      cases j with
      | zero =>
        have h0 : (name, a) = ne2 := by simpa using hget
        subst h0
        cases hab : a.isLabelImage with
        | false => rfl
        | true => exact absurd hab hl
      | succ j2 =>
        exact h4 j2 ne2 (by omega) (by simpa using hget)

/-- Completeness of the locator: if position `i` holds a label image and
every earlier position does not, the locator returns that entry. -/
lemma get_first_label_of_first (sample : Sample) (i : Nat) (ne : String × Entry)
    (hget : sample[i]? = some ne) (hl : ne.2.isLabelImage = true)
    (hfirst : ∀ j ne2, j < i → sample[j]? = some ne2 → ne2.2.isLabelImage = false) :
    get_first_label_image_dict sample = some ne.2 := by
  induction sample generalizing i with
  | nil => simp at hget
  | cons hd rest ih =>
    obtain ⟨name, a⟩ := hd
    cases i with
    | zero =>
      have h0 : (name, a) = ne := by simpa using hget
      subst h0
      cases a with
      | aux p => simp [Entry.isLabelImage] at hl
      | image t d =>
        rw [Entry.isLabelImage, decide_eq_true_iff] at hl
        simp [get_first_label_image_dict, is_image_dict, Entry.typeTag, hl]
    | succ i2 =>
      have ha : a.isLabelImage = false :=
        by simpa using hfirst 0 (name, a) (Nat.succ_pos i2) (by simp)
      have hskip : get_first_label_image_dict ((name, a) :: rest) =
          get_first_label_image_dict rest := by
        cases a with
        | aux p => simp [get_first_label_image_dict, is_image_dict]
        | image t d =>
          have hT : ¬ t = LABEL := by
            intro hEq
            rw [Entry.isLabelImage, decide_eq_false_iff_not] at ha
            exact ha hEq
          simp [get_first_label_image_dict, is_image_dict, Entry.typeTag, hT]
      rw [hskip]
      refine ih i2 (by simpa using hget) ?_
      intro j ne2 hj hget2
      exact hfirst (j + 1) ne2 (by omega) (by simpa using hget2)

/-- Claim C4: the label locator returns exactly the first entry, in the
sample's stable iteration order, that is an image entry whose type equals
the label tag; non-image entries and non-label images are skipped.  The
locator is a pure function of the sample, so it has no side effects on
it; its result determines the `data` array that `extract_patch` reads. -/
theorem get_first_label_image_dict_first_match (sample : Sample) (e : Entry) :
    get_first_label_image_dict sample = some e ↔
      ∃ i : Nat, ∃ ne : String × Entry, sample[i]? = some ne ∧ ne.2 = e ∧
        e.isLabelImage = true ∧
        ∀ (j : Nat), ∀ ne2 : String × Entry,
          j < i → sample[j]? = some ne2 → ne2.2.isLabelImage = false := by
  constructor
  · exact get_first_label_some_spec sample e
  · rintro ⟨i, ne, h1, rfl, h3, h4⟩
    exact get_first_label_of_first sample i ne h1 h3 h4

/-- Witness for C4 on `sampleFg`: the locator picks the entry at index 2
(the first label image, after a non-image entry and an intensity image). -/
theorem get_first_label_image_dict_first_match_witness :
    get_first_label_image_dict sampleFg = some (Entry.image LABEL labelFg) := by
  apply (get_first_label_image_dict_first_match sampleFg (.image LABEL labelFg)).2
  refine ⟨2, ("seg", .image LABEL labelFg), by simp [sampleFg], rfl, by decide, ?_⟩
  intro j ne2 hj hget
  interval_cases j
  · have h0 : ("meta", Entry.aux 7) = ne2 := by simpa [sampleFg] using hget
    subst h0
    decide
  · have h0 : ("t1", Entry.image INTENSITY imgT1) = ne2 := by simpa [sampleFg] using hget
    subst h0
    decide

/-- Claim C3: on a sample with zero label-tagged image entries,
`extract_patch` fails with the no-label error immediately: the result is
the locator error for every generator and every fuel, and the
generator-call count is zero, so no randomness is consumed, the error is
not retried, and no partial result is produced. -/
theorem extract_patch_no_label_error (sample : Sample)
    (h : ∀ ne ∈ sample, ne.2.isLabelImage = false) :
    ∀ (patch_size : List Nat) (gen : Nat → Window) (fuel : Nat),
      extract_patch sample patch_size gen fuel = (.noLabel, 0) := by
  intro patch_size gen fuel
  unfold extract_patch
  rw [get_first_label_none_of_no_label sample h]

/-- Witness for C3 on `sampleNoLabel`. -/
theorem extract_patch_no_label_error_witness :
    (∀ ne ∈ sampleNoLabel, ne.2.isLabelImage = false) ∧
      extract_patch sampleNoLabel [2] genW 5 = (.noLabel, 0) := by
  have h : ∀ ne ∈ sampleNoLabel, ne.2.isLabelImage = false := by
    intro ne hne
    have h2 : ne = ("meta", Entry.aux 7) ∨ ne = ("t1", Entry.image INTENSITY imgT1) := by
      simpa [sampleNoLabel] using hne
    rcases h2 with rfl | rfl <;> decide
  exact ⟨h, extract_patch_no_label_error sampleNoLabel h [2] genW 5⟩

/-!
Lemmas about the retry loop and `extract_patch`.
-/

/-- If the retry loop started at proposal `k0` accepts proposal `k`, then
`k` is in range, its window's label crop has positive sum, and every
proposal between `k0` and `k` was rejected. -/
lemma sampleLoop_some_spec (d : NDArray) (gen : Nat → Window) :
    ∀ (fuel k0 k : Nat), sampleLoop d gen fuel k0 = some k →
      k0 ≤ k ∧ k < k0 + fuel ∧
      0 < (crop d (gen k).1 (gen k).2).sum ∧
      ∀ j, k0 ≤ j → j < k → ¬ 0 < (crop d (gen j).1 (gen j).2).sum := by
  intro fuel
  induction fuel with
  | zero =>
    intro k0 k h
    simp [sampleLoop] at h
  | succ f ih =>
    intro k0 k h
    simp only [sampleLoop] at h
    by_cases hacc : 0 < (crop d (gen k0).1 (gen k0).2).sum
    · rw [if_pos hacc] at h
      obtain rfl : k0 = k := Option.some.inj h
      exact ⟨Nat.le_refl _, by omega, hacc, fun j hj1 hj2 => by omega⟩
    · rw [if_neg hacc] at h
      obtain ⟨h1, h2, h3, h4⟩ := ih (k0 + 1) k h
      refine ⟨by omega, by omega, h3, ?_⟩
      intro j hj1 hj2
      rcases Nat.eq_or_lt_of_le hj1 with rfl | hj3
      · exact hacc
      · exact h4 j (by omega) hj2

/-- If every window's label crop has non-positive sum, the retry loop
never accepts, whatever the fuel and the proposal sequence. -/
lemma sampleLoop_none_of_rejected (d : NDArray) (gen : Nat → Window)
    (h : ∀ index_ini index_fin, ¬ 0 < (crop d index_ini index_fin).sum) :
    ∀ fuel k0, sampleLoop d gen fuel k0 = none := by
  intro fuel
  induction fuel with
  | zero => intro k0; rfl
  | succ f ih =>
    intro k0
    simp only [sampleLoop]
    rw [if_neg (h (gen k0).1 (gen k0).2)]
    exact ih (k0 + 1)

/-- Characterization of a successful `extract_patch` call: the locator
succeeded, the accepted proposal is the first one whose label crop has
positive sum, the generator was called once per proposal up to and
including the accepted one, and the output is `copy_and_crop` of the
whole sample at the accepted window. -/
lemma extract_patch_ok_spec (sample : Sample) (patch_size : List Nat)
    (gen : Nat → Window) (fuel : Nat) (out : Sample) (n : Nat)
    (h : extract_patch sample patch_size gen fuel = (.ok out, n)) :
    ∃ e k, get_first_label_image_dict sample = some e ∧
      n = k + 1 ∧ k < fuel ∧
      0 < (crop e.dataD (gen k).1 (gen k).2).sum ∧
      (∀ j, j < k → ¬ 0 < (crop e.dataD (gen j).1 (gen j).2).sum) ∧
      out = copy_and_crop sample (gen k).1 (gen k).2 := by
  unfold extract_patch at h
  cases hloc : get_first_label_image_dict sample with
  | none =>
    rw [hloc] at h
    simp at h
  | some e =>
    rw [hloc] at h
    dsimp only at h
    cases hloop : sampleLoop e.dataD gen fuel 0 with
    | none =>
      rw [hloop] at h
      simp at h
    | some k =>
      rw [hloop] at h
      simp only [Prod.mk.injEq, ExtractResult.ok.injEq] at h
      obtain ⟨hout, hn⟩ := h
      obtain ⟨h1, h2, h3, h4⟩ := sampleLoop_some_spec e.dataD gen fuel 0 k hloop
      exact ⟨e, k, rfl, hn.symm, by omega, h3,
        fun j hj => h4 j (Nat.zero_le j) hj, hout.symm⟩

/-- Entry-wise view of `copy_and_crop`: position `i` of the cropped
sample is position `i` of the input with its entry cropped. -/
lemma copy_and_crop_getElem (sample : Sample) (index_ini index_fin : List Nat)
    (i : Nat) :
    (copy_and_crop sample index_ini index_fin)[i]? =
      (sample[i]?).map (fun ne => (ne.1, cropEntry index_ini index_fin ne.2)) := by
  unfold copy_and_crop
  exact List.getElem?_map _ sample i

/-- The locator commutes with `copy_and_crop`: the first label image of
the cropped sample is the cropped first label image of the input (cropping
preserves entry kinds and type tags). -/
lemma get_first_label_copy_and_crop (sample : Sample)
    (index_ini index_fin : List Nat) :
    get_first_label_image_dict (copy_and_crop sample index_ini index_fin) =
      (get_first_label_image_dict sample).map (cropEntry index_ini index_fin) := by
  induction sample with
  | nil => rfl
  | cons ne rest ih =>
    obtain ⟨name, e⟩ := ne
    cases e with
    | aux p =>
      simpa [copy_and_crop, get_first_label_image_dict, cropEntry,
        is_image_dict] using ih
    | image t d =>
      by_cases hT : t = LABEL
      · subst hT
        simp [copy_and_crop, get_first_label_image_dict, cropEntry,
          is_image_dict, Entry.typeTag]
      · simpa [copy_and_crop, get_first_label_image_dict, cropEntry,
          is_image_dict, Entry.typeTag, hT] using ih

/-- Claim C1: for every sample and patch size for which `extract_patch`
returns, the returned cropped sample's label sub-array — the crop of the
first label-tagged entry's data by the accepted window — has positive
sum, i.e. contains at least one foreground voxel. -/
theorem extract_patch_foreground_guarantee (sample : Sample)
    (patch_size : List Nat) (gen : Nat → Window) (fuel : Nat)
    (out : Sample) (n : Nat)
    (h : extract_patch sample patch_size gen fuel = (.ok out, n)) :
    ∃ e index_ini index_fin,
      get_first_label_image_dict sample = some e ∧
      out = copy_and_crop sample index_ini index_fin ∧
      get_first_label_image_dict out = some (cropEntry index_ini index_fin e) ∧
      (cropEntry index_ini index_fin e).dataD = crop e.dataD index_ini index_fin ∧
      0 < (crop e.dataD index_ini index_fin).sum := by
  obtain ⟨e, k, hloc, hn, hk, hacc, hrej, hout⟩ :=
    extract_patch_ok_spec sample patch_size gen fuel out n h
  refine ⟨e, (gen k).1, (gen k).2, hloc, hout, ?_, ?_, hacc⟩
  · rw [hout, get_first_label_copy_and_crop, hloc]
    rfl
  · obtain ⟨i, ne, _, _, hl, _⟩ := get_first_label_some_spec sample e hloc
    cases e with
    | aux p => simp [Entry.isLabelImage] at hl
    | image t d => rfl

/-- Witness for C1: a concrete run on `sampleFg` accepts the window
`([1], [3])` at the second proposal, and the theorem yields the
foreground guarantee for its output. -/
theorem extract_patch_foreground_guarantee_witness :
    extract_patch sampleFg [2] genW 10 = (.ok (copy_and_crop sampleFg [1] [3]), 2) ∧
      ∃ e index_ini index_fin,
        get_first_label_image_dict sampleFg = some e ∧
        copy_and_crop sampleFg [1] [3] = copy_and_crop sampleFg index_ini index_fin ∧
        get_first_label_image_dict (copy_and_crop sampleFg [1] [3]) =
          some (cropEntry index_ini index_fin e) ∧
        (cropEntry index_ini index_fin e).dataD = crop e.dataD index_ini index_fin ∧
        0 < (crop e.dataD index_ini index_fin).sum :=
  ⟨rfl, extract_patch_foreground_guarantee sampleFg [2] genW 10
    (copy_and_crop sampleFg [1] [3]) 2 rfl⟩

/-- Claim C2: if the sample has a label volume but every crop window over
it has non-positive sum (zero foreground voxels anywhere), the retry loop
of `extract_patch` never accepts: for every patch size, every proposal
sequence and every fuel the call is still `running`, with no error exit —
a livelock. -/
theorem extract_patch_livelock_on_zero_label (sample : Sample) (e : Entry)
    (hloc : get_first_label_image_dict sample = some e)
    (hzero : ∀ index_ini index_fin, ¬ 0 < (crop e.dataD index_ini index_fin).sum) :
    ∀ (patch_size : List Nat) (gen : Nat → Window) (fuel : Nat),
      extract_patch sample patch_size gen fuel = (.running, fuel) := by
  intro patch_size gen fuel
  unfold extract_patch
  rw [hloc]
  dsimp only
  rw [sampleLoop_none_of_rejected e.dataD gen hzero fuel 0]

/-- Witness for C2 on `sampleZero`, whose label volume is all zero. -/
theorem extract_patch_livelock_on_zero_label_witness :
    get_first_label_image_dict sampleZero = some (.image LABEL labelZero) ∧
      (∀ index_ini index_fin,
        ¬ 0 < (crop (Entry.image LABEL labelZero).dataD index_ini index_fin).sum) ∧
      extract_patch sampleZero [2] genW 7 = (.running, 7) := by
  have hz : ∀ index_ini index_fin,
      ¬ 0 < (crop (Entry.image LABEL labelZero).dataD index_ini index_fin).sum := by
    intro index_ini index_fin
    rw [NDArray.sum_of_zero (crop (Entry.image LABEL labelZero).dataD index_ini index_fin)
      (fun c idx => rfl)]
    omega
  exact ⟨rfl, hz,
    extract_patch_livelock_on_zero_label sampleZero (.image LABEL labelZero) rfl hz
      [2] genW 7⟩

/-- Claim C5: every output of `extract_patch` is the input sample with
every image entry cropped by the one accepted window — the same window
whose label crop satisfied the acceptance test — while non-image entries
pass through unchanged (entry-wise: position `i` of the output is
position `i` of the input under `cropEntry`, which leaves `aux` entries
untouched). -/
theorem extract_patch_window_consistency (sample : Sample)
    (patch_size : List Nat) (gen : Nat → Window) (fuel : Nat)
    (out : Sample) (n : Nat)
    (h : extract_patch sample patch_size gen fuel = (.ok out, n)) :
    ∃ e index_ini index_fin,
      get_first_label_image_dict sample = some e ∧
      0 < (crop e.dataD index_ini index_fin).sum ∧
      ∀ i : Nat, out[i]? =
        (sample[i]?).map (fun ne => (ne.1, cropEntry index_ini index_fin ne.2)) := by
  obtain ⟨e, k, hloc, _, _, hacc, _, hout⟩ :=
    extract_patch_ok_spec sample patch_size gen fuel out n h
  refine ⟨e, (gen k).1, (gen k).2, hloc, hacc, ?_⟩
  intro i
  rw [hout, copy_and_crop_getElem]

/-- Witness for C5 on the concrete accepted run of `sampleFg`. -/
theorem extract_patch_window_consistency_witness :
    extract_patch sampleFg [2] genW 10 = (.ok (copy_and_crop sampleFg [1] [3]), 2) ∧
      ∃ e index_ini index_fin,
        get_first_label_image_dict sampleFg = some e ∧
        0 < (crop e.dataD index_ini index_fin).sum ∧
        ∀ i : Nat, (copy_and_crop sampleFg [1] [3])[i]? =
          (sampleFg[i]?).map (fun ne => (ne.1, cropEntry index_ini index_fin ne.2)) :=
  ⟨rfl, extract_patch_window_consistency sampleFg [2] genW 10
    (copy_and_crop sampleFg [1] [3]) 2 rfl⟩

/-- Subtracting the start back off an offset window recovers the patch
size. -/
lemma zipWith_sub_add (ini ps : List Nat) (h : ini.length = ps.length) :
    List.zipWith (fun f i => f - i)
      (List.zipWith (fun i p => i + p) ini ps) ini = ps := by
  induction ini generalizing ps with
  | nil => cases ps with
    | nil => rfl
    | cons b u => simp at h
  | cons a t ih =>
    cases ps with
    | nil => simp at h
    | cons b u =>
      simp only [List.zipWith_cons_cons]
      rw [ih u (by simpa using h)]
      congr 1
      omega

/-- Claim C6: assuming the random-index generator honours its contract —
each proposed window satisfies `index_fin[d] = index_ini[d] +
patch_size[d]` dimension-wise — every image entry of an `extract_patch`
output has spatial extent exactly `patch_size`, with the channel dimension
of the corresponding input entry preserved in full. -/
theorem extract_patch_shape_guarantee (sample : Sample)
    (patch_size : List Nat) (gen : Nat → Window) (fuel : Nat)
    (out : Sample) (n : Nat)
    (hgen : ∀ m : Nat, (gen m).1.length = patch_size.length ∧
      (gen m).2 = List.zipWith (fun i p => i + p) (gen m).1 patch_size)
    (h : extract_patch sample patch_size gen fuel = (.ok out, n)) :
    ∀ (i : Nat) (name t : String) (d : NDArray),
      out[i]? = some (name, .image t d) →
      d.extent = patch_size ∧
      ∃ d0 : NDArray, sample[i]? = some (name, .image t d0) ∧
        d.channels = d0.channels := by
  obtain ⟨e, k, _, _, _, _, _, hout⟩ :=
    extract_patch_ok_spec sample patch_size gen fuel out n h
  intro i name t d hi
  rw [hout, copy_and_crop_getElem] at hi
  cases hs : sample[i]? with
  | none =>
    rw [hs] at hi
    simp at hi
  | some ne =>
    rw [hs] at hi
    obtain ⟨name2, e2⟩ := ne
    cases e2 with
    | aux p => simp [cropEntry] at hi
    | image t2 d2 =>
      simp only [Option.map_some', cropEntry, Option.some.injEq,
        Prod.mk.injEq, Entry.image.injEq] at hi
      obtain ⟨hname, htag, hd⟩ := hi
      subst htag
      subst hd
      subst hname
      refine ⟨?_, d2, ?_, rfl⟩
      · show List.zipWith (fun f i => f - i) (gen k).2 (gen k).1 = patch_size
        rw [(hgen k).2]
        exact zipWith_sub_add (gen k).1 patch_size (hgen k).1
      · rfl

/-- Witness for C6: `genW` honours the window contract for patch size
`[2]`, and the theorem applies to the concrete accepted run. -/
theorem extract_patch_shape_guarantee_witness :
    (∀ m : Nat, (genW m).1.length = ([2] : List Nat).length ∧
      (genW m).2 = List.zipWith (fun i p => i + p) (genW m).1 [2]) ∧
      extract_patch sampleFg [2] genW 10 = (.ok (copy_and_crop sampleFg [1] [3]), 2) ∧
      ∀ (i : Nat) (name t : String) (d : NDArray),
        (copy_and_crop sampleFg [1] [3])[i]? = some (name, .image t d) →
        d.extent = [2] ∧
        ∃ d0 : NDArray, sampleFg[i]? = some (name, .image t d0) ∧
          d.channels = d0.channels := by
  have hgen : ∀ m : Nat, (genW m).1.length = ([2] : List Nat).length ∧
      (genW m).2 = List.zipWith (fun i p => i + p) (genW m).1 [2] :=
    fun m => ⟨rfl, rfl⟩
  exact ⟨hgen, rfl, extract_patch_shape_guarantee sampleFg [2] genW 10
    (copy_and_crop sampleFg [1] [3]) 2 hgen rfl⟩

/-- Claim C10: `extract_patch` is deterministic given its random inputs:
runs fed equal window sequences coincide, and any successful run performs
one generator call per proposal up to and including the accepted window,
which is the first proposed window whose label crop has positive sum; the
output is the sample cropped at that window.  The label locator's result
is obtained once, before the loop, and is the same whatever the number of
rejections. -/
theorem extract_patch_deterministic_first_accept (sample : Sample)
    (patch_size : List Nat) (gen gen2 : Nat → Window) (fuel : Nat)
    (hsame : ∀ m : Nat, gen m = gen2 m) :
    extract_patch sample patch_size gen fuel =
      extract_patch sample patch_size gen2 fuel ∧
    ∀ out n, extract_patch sample patch_size gen fuel = (.ok out, n) →
      ∃ e k, get_first_label_image_dict sample = some e ∧ n = k + 1 ∧
        0 < (crop e.dataD (gen k).1 (gen k).2).sum ∧
        (∀ j, j < k → ¬ 0 < (crop e.dataD (gen j).1 (gen j).2).sum) ∧
        out = copy_and_crop sample (gen k).1 (gen k).2 := by
  have hg : gen = gen2 := funext hsame
  subst hg
  refine ⟨rfl, ?_⟩
  intro out n h
  obtain ⟨e, k, h1, h2, _, h4, h5, h6⟩ :=
    extract_patch_ok_spec sample patch_size gen fuel out n h
  exact ⟨e, k, h1, h2, h4, h5, h6⟩

/-- Witness for C10 at the concrete run on `sampleFg`. -/
theorem extract_patch_deterministic_first_accept_witness :
    (∀ m : Nat, genW m = genW m) ∧
      (extract_patch sampleFg [2] genW 10 = extract_patch sampleFg [2] genW 10 ∧
      ∀ out n, extract_patch sampleFg [2] genW 10 = (.ok out, n) →
        ∃ e k, get_first_label_image_dict sampleFg = some e ∧ n = k + 1 ∧
          0 < (crop e.dataD (genW k).1 (genW k).2).sum ∧
          (∀ j, j < k → ¬ 0 < (crop e.dataD (genW j).1 (genW j).2).sum) ∧
          out = copy_and_crop sampleFg (genW k).1 (genW k).2) :=
  ⟨fun _ => rfl,
    extract_patch_deterministic_first_accept sampleFg [2] genW genW 10 (fun _ => rfl)⟩

/-- Claim C9: for a fixed `(sample, patch_size)` pair the wrapper yields
an unbounded lazy sequence: drawing `n` elements never stops early (the
step never signals completion, so the drawn list always has length `n`),
the `i`-th element is the result of one fresh independent `extract_patch`
call on the stored pair using the `i`-th segment of randomness, and the
only state carried between successive elements is the yield counter — the
shared source sample and the patch size are unchanged. -/
theorem extract_patch_generator_stream_spec (gens : Nat → Nat → Window)
    (fuel : Nat) :
    ∀ (n : Nat) (st : GenState),
      (genRun gens fuel n st).1.length = n ∧
      (genRun gens fuel n st).2.sample = st.sample ∧
      (genRun gens fuel n st).2.patch_size = st.patch_size ∧
      (genRun gens fuel n st).2.count = st.count + n ∧
      ∀ i : Nat, i < n → (genRun gens fuel n st).1[i]? =
        some (extract_patch st.sample st.patch_size (gens (st.count + i)) fuel) := by
  intro n
  induction n with
  | zero =>
    intro st
    exact ⟨rfl, rfl, rfl, rfl, fun i hi => absurd hi (by omega)⟩
  | succ m ih =>
    intro st
    obtain ⟨ih1, ih2, ih3, ih4, ih5⟩ := ih { st with count := st.count + 1 }
    simp only [genRun, extract_patch_generator_step]
    refine ⟨by simpa using ih1, by simpa using ih2, by simpa using ih3, ?_, ?_⟩
    · show (genRun gens fuel m { st with count := st.count + 1 }).2.count = st.count + (m + 1)
      rw [ih4]
      show st.count + 1 + m = st.count + (m + 1)
      omega
    · intro i hi
      cases i with
      | zero =>
        rw [List.getElem?_cons_zero, Nat.add_zero]
      | succ j =>
        have hj : j < m := by omega
        have he := ih5 j hj
        dsimp only at he
        have harith : st.count + 1 + j = st.count + (j + 1) := by omega
        rw [harith] at he
        rw [List.getElem?_cons_succ]
        exact he

/-- Witness for C9: drawing two elements starting from a fresh generator
state over `sampleFg` yields exactly two elements, leaves the pair in the
state, advances the counter to 2, and the second element is a fresh
`extract_patch` call. -/
theorem extract_patch_generator_stream_spec_witness :
    (genRun (fun _ => genW) 3 2 ⟨sampleFg, [2], 0⟩).1.length = 2 ∧
      (genRun (fun _ => genW) 3 2 ⟨sampleFg, [2], 0⟩).2.sample = sampleFg ∧
      (genRun (fun _ => genW) 3 2 ⟨sampleFg, [2], 0⟩).2.count = 0 + 2 ∧
      (genRun (fun _ => genW) 3 2 ⟨sampleFg, [2], 0⟩).1[1]? =
        some (extract_patch sampleFg [2] genW 3) := by
  have T := extract_patch_generator_stream_spec (fun _ => genW) 3 2 ⟨sampleFg, [2], 0⟩
  exact ⟨T.1, T.2.1, T.2.2.2.1, by simpa using T.2.2.2.2 1 (by omega)⟩

/-!
Lemmas for the heap-level model.
-/

/-- The loop only appends to the heap. -/
lemma sampleLoopH_extends (gen : Nat → Window) :
    ∀ (fuel : Nat) (h : Heap) (labelRef k : Nat),
      ∃ t : List NDArray, (sampleLoopH gen fuel h labelRef k).1 = h ++ t := by
  intro fuel
  induction fuel with
  | zero =>
    intro h r k
    exact ⟨[], (List.append_nil h).symm⟩
  | succ f ih =>
    intro h r k
    simp only [sampleLoopH]
    by_cases hacc : 0 < (Heap.readA (cropH h r (gen k).1 (gen k).2).1
        (cropH h r (gen k).1 (gen k).2).2).sum
    · rw [if_pos hacc]
      exact ⟨[crop (h.readA r) (gen k).1 (gen k).2], rfl⟩
    · rw [if_neg hacc]
      obtain ⟨t, ht⟩ := ih (cropH h r (gen k).1 (gen k).2).1 r (k + 1)
      refine ⟨crop (h.readA r) (gen k).1 (gen k).2 :: t, ?_⟩
      rw [ht]
      simp [cropH]

/-- `copy_and_crop` at heap level only appends to the heap, and every
image reference it writes into the output sample is fresh: at least the
length of the heap it started from. -/
lemma copy_and_cropH_extends :
    ∀ (sample : HSample) (h : Heap) (index_ini index_fin : List Nat),
      (∃ t : List NDArray, (copy_and_cropH h sample index_ini index_fin).1 = h ++ t) ∧
      ∀ (i : Nat) (name ty : String) (r : Nat),
        (copy_and_cropH h sample index_ini index_fin).2[i]? = some (name, .image ty r) →
        h.length ≤ r := by
  intro sample
  induction sample with
  | nil =>
    intro h index_ini index_fin
    refine ⟨⟨[], (List.append_nil h).symm⟩, ?_⟩
    intro i name ty r hi
    simp [copy_and_cropH] at hi
  | cons ne rest ih =>
    intro h index_ini index_fin
    obtain ⟨name0, e0⟩ := ne
    cases e0 with
    | aux p =>
      obtain ⟨⟨t, ht⟩, hrefs⟩ := ih h index_ini index_fin
      simp only [copy_and_cropH]
      refine ⟨⟨t, ht⟩, ?_⟩
      intro i name ty r hi
      cases i with
      | zero => simp at hi
      | succ j => exact hrefs j name ty r (by simpa using hi)
    | image ty0 r0 =>
      obtain ⟨⟨t, ht⟩, hrefs⟩ := ih (cropH h r0 index_ini index_fin).1 index_ini index_fin
      simp only [copy_and_cropH]
      constructor
      · refine ⟨crop (h.readA r0) index_ini index_fin :: t, ?_⟩
        rw [ht]
        simp [cropH]
      · intro i name ty r hi
        cases i with
        | zero =>
          have h0 : r = (cropH h r0 index_ini index_fin).2 := by
            simp only [List.getElem?_cons_zero, Option.some.injEq,
              Prod.mk.injEq, HEntry.image.injEq] at hi
            exact hi.2.2.symm
          rw [h0]
          exact Nat.le_refl _
        | succ j =>
          have hr := hrefs j name ty r (by simpa using hi)
          have hlen : (cropH h r0 index_ini index_fin).1.length = h.length + 1 := by
            simp [cropH]
          omega

/-- Claim C7: `extract_patch` does not mutate the caller's arrays.  At
heap level, every heap cell that existed before the call reads the same
array afterwards (original sample arrays unchanged by value), and every
image reference in a returned cropped sample is fresh — allocated during
the call — so the output holds new sub-arrays, never in-place mutations
of caller-owned data. -/
theorem extract_patchH_non_mutation (h : Heap) (sample : HSample)
    (patch_size : List Nat) (gen : Nat → Window) (fuel : Nat) :
    (∀ i : Nat, i < h.length →
      (extract_patchH h sample patch_size gen fuel).1[i]? = h[i]?) ∧
    ∀ out, (extract_patchH h sample patch_size gen fuel).2 = .ok out →
      ∀ (i : Nat) (name ty : String) (r : Nat),
        out[i]? = some (name, .image ty r) → h.length ≤ r := by
  unfold extract_patchH
  cases hloc : get_first_label_image_dictH sample with
  | none =>
    refine ⟨fun i hi => rfl, ?_⟩
    intro out hout
    simp at hout
  | some e =>
    dsimp only
    cases hloop : sampleLoopH gen fuel h e.refD 0 with
    | mk h1 acc =>
      have hext : ∃ t : List NDArray, h1 = h ++ t := by
        have hx := sampleLoopH_extends gen fuel h e.refD 0
        rw [hloop] at hx
        simpa using hx
      obtain ⟨t1, ht1⟩ := hext
      cases acc with
      | none =>
        refine ⟨?_, ?_⟩
        · intro i hi
          show h1[i]? = h[i]?
          rw [ht1]
          exact List.getElem?_append_left hi
        · intro out hout
          simp at hout
      | some k =>
        obtain ⟨⟨t2, ht2⟩, hrefs⟩ := copy_and_cropH_extends sample h1 (gen k).1 (gen k).2
        refine ⟨?_, ?_⟩
        · intro i hi
          show (copy_and_cropH h1 sample (gen k).1 (gen k).2).1[i]? = h[i]?
          rw [ht2, ht1, List.append_assoc]
          exact List.getElem?_append_left hi
        · intro out hout
          have hout2 : (copy_and_cropH h1 sample (gen k).1 (gen k).2).2 = out := by
            simpa using hout
          intro i name ty r hi
          rw [hout2] at hrefs
          have hr := hrefs i name ty r hi
          have hlen : h.length ≤ h1.length := by
            rw [ht1]
            simp
          omega

/-- Witness for C7: on the concrete heap run, cell 0 (the caller's label
array) is unchanged, and the returned sample's cropped intensity image
lives at the fresh reference 4, beyond the two caller-owned cells. -/
theorem extract_patchH_non_mutation_witness :
    (0 < heapFg.length ∧
      (extract_patchH heapFg hsampleFg [2] genW 10).1[0]? = heapFg[0]?) ∧
    ((extract_patchH heapFg hsampleFg [2] genW 10).2 =
        .ok [("meta", .aux 7), ("t1", .image INTENSITY 4), ("seg", .image LABEL 5)] ∧
      heapFg.length ≤ 4) :=
  ⟨⟨by decide, (extract_patchH_non_mutation heapFg hsampleFg [2] genW 10).1 0 (by decide)⟩,
   ⟨rfl, (extract_patchH_non_mutation heapFg hsampleFg [2] genW 10).2
      [("meta", .aux 7), ("t1", .image INTENSITY 4), ("seg", .image LABEL 5)]
      rfl 1 "t1" INTENSITY 4 rfl⟩⟩

end TorchioLabel
